import Mathlib

/-!
Verification development for `gather_package_deps.py` (Fuchsia CTS build
script).  The script's data model and operations are embedded shallowly:

* `pathStripperGroup1` embeds `GatherPackageDeps.path_stripper`, the compiled
  Python regular expression `(?:(?:\.\.\/)+)?\/?(.+)` applied with `re.match`
  (anchored at the start, longest-match with backtracking, `.` not matching
  a newline), returning capture group 1, or `none` when there is no match
  (in Python `m.group(1)` would then raise `AttributeError`).
* `dictInsert` embeds Python `dict` assignment semantics: an existing key
  keeps its position and gets the new value, a new key is appended.
* `parse_package_json`, `copyLoop` (the loop body of `copy_to_output_dir`),
  `write_new_manifest_content`, `finishStages`, `runStages`, `gatherInit`
  (the `__init__` validation), `gatherRun` (`run`) and `mainExit` (`main`)
  embed the corresponding methods, with the file system modelled as an
  association list from output-directory-relative paths to file contents
  (a copied file's content is tagged by its source path) plus a
  chronological write log.
-/

/-! ### The path stripper regular expression -/

/-- Greatest `k` such that the string starts with `k` copies of `../`; this is
how many repetitions the greedy group `(?:\.\.\/)+` consumes at first. -/
def countDotDotSlash : List Char → Nat
  | c1 :: c2 :: c3 :: rest =>
      if c1 = '.' ∧ c2 = '.' ∧ c3 = '/' then countDotDotSlash rest + 1 else 0
  | _ => 0

/-- What `.+` captures from a position: everything up to (not including) the
first newline, since `.` does not match a newline. -/
def takeLine (s : List Char) : List Char := s.takeWhile (fun c => c ≠ '\n')

/-- Attempt of the tail `\/?(.+)` of the pattern at a fixed position: first
with the optional `/` consumed, then without it.  Returns the capture of
group 1 on success. -/
def tryHere : List Char → Option (List Char)
  | [] => none
  | c :: rest =>
      if c = '/' then
        match rest with
        | [] => some ['/']
        | c2 :: _ => if c2 = '\n' then some ['/'] else some (takeLine rest)
      else if c = '\n' then none
      else some (takeLine (c :: rest))

/-- Backtracking over the repetition count of `(?:\.\.\/)+`: the engine tries
`r` repetitions (position `3*r`) first, then fewer, down to zero (the outer
group `(?:...)?` absent). -/
def tryReps (s : List Char) : Nat → Option (List Char)
  | 0 => tryHere s
  | r + 1 =>
      match tryHere (s.drop (3 * (r + 1))) with
      | some g => some g
      | none => tryReps s r

/-- Capture group 1 of `re.match(r'(?:(?:\.\.\/)+)?\/?(.+)', s)`, or `none`
when the pattern does not match. -/
def pathStripperGroup1 (s : String) : Option String :=
  (tryReps s.data (countDotDotSlash s.data)).map fun l => String.mk l

/-- The list of characters `../` repeated `k` times. -/
def dotdots : Nat → List Char
  | 0 => []
  | k + 1 => '.' :: '.' :: '/' :: dotdots k

/-- Boolean test that `p` is a leading segment of `l`. -/
def leadsWith : List Char → List Char → Bool
  | [], _ => true
  | _ :: _, [] => false
  | a :: as, b :: bs => a == b && leadsWith as bs

/-- Python `str.startswith(pre)` on `s`: `pre` is a leading segment of `s`.
Structural equivalent of `String.startsWith`, stated over the character
lists so that concrete runs evaluate by kernel reduction. -/
def pyStartsWith (s pre : String) : Bool := leadsWith pre.data s.data

example : pathStripperGroup1 "../../out/obj/app" = some "out/obj/app" := by decide
example : pathStripperGroup1 "/../foo" = some "../foo" := by decide
example : pathStripperGroup1 "//foo" = some "/foo" := by decide
example : pathStripperGroup1 "../.." = some ".." := by decide
example : pathStripperGroup1 "../" = some "../" := by decide
example : pathStripperGroup1 "/" = some "/" := by decide
example : pathStripperGroup1 "" = none := by decide
example : pathStripperGroup1 "..///x" = some "/x" := by decide

/-! ### Python dict model -/

/-- Whether `k` is already a key of the association list. -/
def hasKey (m : List (String × String)) (k : String) : Bool :=
  m.any fun q => q.1 == k

/-- Python `d[k] = v`: an existing key keeps its position and receives the new
value, a new key is appended at the end (insertion order). -/
def dictInsert (m : List (String × String)) (k v : String) :
    List (String × String) :=
  if hasKey m k then m.map fun q => if q.1 == k then (k, v) else q
  else m ++ [(k, v)]

/-- The keys of the association list, in order. -/
def keysOf (m : List (String × String)) : List String := m.map Prod.fst

/-! ### Data model of the script -/

/-- One element of `data['blobs']` in `package_manifest.json`: the fields
`path` (in-package virtual path) and `source_path` read by the script. -/
structure Blob where
  path : String
  source_path : String
deriving DecidableEq

/-- The fold step of `parse_package_json`: entries whose `path` starts with
`meta/` are skipped, the rest are assigned into the dict. -/
def parseFold (acc : List (String × String)) (blobs : List Blob) :
    List (String × String) :=
  blobs.foldl
    (fun m file =>
      if pyStartsWith file.path "meta/" then m
      else dictInsert m file.path file.source_path)
    acc

/-- `GatherPackageDeps.parse_package_json`: builds `manifest_dict` from the
manifest's blob list. -/
def parse_package_json (blobs : List Blob) : List (String × String) :=
  parseFold [] blobs

/-- Kinds of file writes the script performs, used to tag the write log. -/
inductive WriteKind
  | fileCopy
  | manifestFile
  | tarFile
  | depFile
deriving DecidableEq

/-- One file write: kind, target path, and content.  The content of a copied
file is tagged by its source path. -/
structure FsWrite where
  kind : WriteKind
  path : String
  content : String
deriving DecidableEq

/-- Failure modes of a run.  The first four are the `ValueError`s raised by
`__init__`; `malformedManifest` covers `json.load`/key errors in
`parse_package_json`; `sourceMatchFailed` is the `AttributeError` from
`m.group(1)` when the path stripper does not match; `missingSource` is the
I/O error from `shutil.copyfile` on an absent source file. -/
inductive RunError
  | invalidPackageJsonPath
  | invalidMetaFarPath
  | emptyOutputDir
  | emptyDepfile
  | malformedManifest
  | sourceMatchFailed (src : String)
  | missingSource (src : String)
deriving DecidableEq

/-- Whether the error is a validation error (missing/invalid required input),
as opposed to a mid-pipeline I/O or matching error. -/
def RunError.isValidation : RunError → Bool
  | .invalidPackageJsonPath => true
  | .invalidMetaFarPath => true
  | .emptyOutputDir => true
  | .emptyDepfile => true
  | .malformedManifest => true
  | _ => false

/-- Environment of an invocation: the four command line arguments plus what
the file system holds.  `manifestJson = none` means the manifest file is
unreadable or malformed (any exception from `json.load` or the key
accesses); `srcExists` tells whether a blob source file exists. -/
structure World where
  package_json_path : String
  meta_far_path : String
  output_dir : String
  depfile : String
  packageJsonExists : Bool
  metaFarExists : Bool
  manifestJson : Option (List Blob)
  srcExists : String → Bool

/-- Result of a successful run: the final manifest mapping, the contents of
`package.manifest`, the archive members (output-dir-relative path with
content), the files left in the output directory, and the depfile's
contents. -/
structure RunResult where
  finalManifest : List (String × String)
  manifestContent : String
  archive : List (String × String)
  finalDir : List (String × String)
  depfileContent : String
deriving DecidableEq

/-- The `__init__` validation of `GatherPackageDeps`, in source order: each
argument must be nonempty (Python truthiness) and the two input files must
exist. -/
def gatherInit (w : World) : Except RunError Unit :=
  if w.package_json_path ≠ "" ∧ w.packageJsonExists = true then
    if w.meta_far_path ≠ "" ∧ w.metaFarExists = true then
      if w.output_dir ≠ "" then
        if w.depfile ≠ "" then Except.ok ()
        else Except.error RunError.emptyDepfile
      else Except.error RunError.emptyOutputDir
    else Except.error RunError.invalidMetaFarPath
  else Except.error RunError.invalidPackageJsonPath

/-- The loop of `copy_to_output_dir`: for each `(archive_path, source_path)`
item, match the path stripper (an unmatched path raises), copy the source
file to `os.path.join(output_dir, <group1>)` (a missing source raises), and
replace the entry's value by the stripped path.  POSIX `os.path.join`
discards `output_dir` when the second component is absolute: a capture that
begins with `/` (possible, e.g. `..///x` captures `/x`) is copied to that
absolute path, OUTSIDE the output directory, so it never enters the walked
tree, while the manifest entry is still rewritten to it.  `dir` is the
output directory state, `log` the chronological write log (target path as
`os.path.join` computes it), `acc` the mapping rebuilt so far. -/
def copyLoop (w : World) :
    List (String × String) → List (String × String) → List FsWrite →
    List (String × String) →
    List FsWrite × Except RunError (List (String × String) × List (String × String))
  | [], dir, log, acc => (log, Except.ok (dir, acc))
  | (k, src) :: rest, dir, log, acc =>
      match pathStripperGroup1 src with
      | none => (log, Except.error (RunError.sourceMatchFailed src))
      | some g =>
          if w.srcExists src then
            if leadsWith ['/'] g.data then
              copyLoop w rest dir
                (log ++ [⟨WriteKind.fileCopy, g, src⟩])
                (acc ++ [(k, g)])
            else
              copyLoop w rest (dictInsert dir g src)
                (log ++ [⟨WriteKind.fileCopy, w.output_dir ++ "/" ++ g, src⟩])
                (acc ++ [(k, g)])
          else (log, Except.error (RunError.missingSource src))

/-- `write_new_manifest`: one `archive_path=source_path` line per mapping
entry in order, then the fixed `meta/package=meta.far` line. -/
def write_new_manifest_content (manifest : List (String × String)) : String :=
  String.join (manifest.map fun kv => kv.1 ++ "=" ++ kv.2 ++ "\n") ++
    "meta/package=meta.far\n"

/-- The output directory contents right before the archive walk: the state
after the copies, plus `package.manifest`, plus the freshly created (still
empty) `package.tar`. -/
def dirBeforeArchive (dir1 newManifest : List (String × String)) :
    List (String × String) :=
  dictInsert
    (dictInsert dir1 "package.manifest" (write_new_manifest_content newManifest))
    "package.tar" ""

/-- The tail of `run` after `copy_to_output_dir` succeeded: write
`package.manifest`, create `package.tar` inside the output directory,
archive every file of the directory except the tar itself (removing each
loose copy as it is added, so only the tar remains), and write the depfile
line `<tar_path>: <deps>`. -/
def finishStages (w : World) (deps : String) (log : List FsWrite)
    (dir1 newManifest : List (String × String)) :
    List FsWrite × Except RunError RunResult :=
  (log ++
      [⟨WriteKind.manifestFile, w.output_dir ++ "/package.manifest",
          write_new_manifest_content newManifest⟩,
        ⟨WriteKind.tarFile, w.output_dir ++ "/package.tar", ""⟩,
        ⟨WriteKind.depFile, w.depfile,
          w.output_dir ++ "/package.tar" ++ ": " ++ deps ++ "\n"⟩],
    Except.ok
      ⟨newManifest, write_new_manifest_content newManifest,
        (dirBeforeArchive dir1 newManifest).filter
          (fun q => !(q.1 == "package.tar")),
        (dirBeforeArchive dir1 newManifest).filter
          (fun q => q.1 == "package.tar"),
        w.output_dir ++ "/package.tar" ++ ": " ++ deps ++ "\n"⟩)

/-- The body of `run` once the manifest parsed: record `deps` from the
pre-mutation values, copy `meta.far`, run the copy loop, then finish. -/
def runStages (w : World) (blobs : List Blob) :
    List FsWrite × Except RunError RunResult :=
  match copyLoop w (parse_package_json blobs)
      (dictInsert [] "meta.far" w.meta_far_path)
      [⟨WriteKind.fileCopy, w.output_dir ++ "/meta.far", w.meta_far_path⟩] [] with
  | (log, Except.error e) => (log, Except.error e)
  | (log, Except.ok (dir1, newManifest)) =>
      finishStages w
        (String.intercalate " " ((parse_package_json blobs).map Prod.snd))
        log dir1 newManifest

/-- `GatherPackageDeps(...)` construction followed by `.run()`: validation
first, then manifest parsing, then the stages.  Returns the chronological
write log together with the result. -/
def gatherRun (w : World) : List FsWrite × Except RunError RunResult :=
  match gatherInit w with
  | Except.error e => ([], Except.error e)
  | Except.ok _ =>
      match w.manifestJson with
      | none => ([], Except.error RunError.malformedManifest)
      | some blobs => runStages w blobs

/-- `main`: returns 0 on success; any exception is caught and turns into
exit code 1. -/
def mainExit (w : World) : Nat :=
  match (gatherRun w).2 with
  | Except.ok _ => 0
  | Except.error _ => 1

/-! ### Model of GNU-format tar member names -/

/-- How a member name is represented in the produced tar. -/
inductive TarNameRepr
  | plainHeader
  | gnuLongNameRecord
deriving DecidableEq

/-- Name handling of CPython `tarfile` with `format=tarfile.GNU_FORMAT`, the
format `archive_output` selects: a member name of at most 100 characters is
stored in the plain unextended ustar header name field; a longer name is
stored whole through a GNU long-name (type `L`) pseudo-member.  Names are
never truncated and adding a member never fails because of name length. -/
def gnuNameRepr (name : String) : TarNameRepr :=
  if name.length ≤ 100 then TarNameRepr.plainHeader
  else TarNameRepr.gnuLongNameRecord

/-! ### Lemmas about the dict model -/

lemma hasKey_iff (m : List (String × String)) (k : String) :
    hasKey m k = true ↔ k ∈ keysOf m := by
  simp [hasKey, keysOf, List.any_eq_true, List.mem_map]

lemma keysOf_map_update (m : List (String × String)) (k v : String) :
    keysOf (m.map fun q => if q.1 == k then (k, v) else q) = keysOf m := by
  unfold keysOf
  rw [List.map_map]
  apply List.map_congr_left
  rintro ⟨a, b⟩ _
  by_cases h : a = k <;> simp [Function.comp, h]

lemma keysOf_dictInsert (m : List (String × String)) (k v : String) :
    keysOf (dictInsert m k v) =
      if hasKey m k then keysOf m else keysOf m ++ [k] := by
  unfold dictInsert
  by_cases h : hasKey m k
  · rw [if_pos h, if_pos h, keysOf_map_update]
  · rw [if_neg h, if_neg h]
    simp [keysOf]

lemma mem_keysOf_dictInsert (m : List (String × String)) (k v p : String) :
    p ∈ keysOf (dictInsert m k v) ↔ p ∈ keysOf m ∨ p = k := by
  rw [keysOf_dictInsert]
  by_cases h : hasKey m k
  · simp only [h, if_pos]
    constructor
    · exact Or.inl
    · rintro (hp | rfl)
      · exact hp
      · exact (hasKey_iff m p).1 h
  · simp [h]

lemma nodup_keysOf_dictInsert (m : List (String × String)) (k v : String)
    (h : (keysOf m).Nodup) : (keysOf (dictInsert m k v)).Nodup := by
  rw [keysOf_dictInsert]
  by_cases hk : hasKey m k
  · simpa [hk] using h
  · have hk' : k ∉ keysOf m := fun hmem => hk ((hasKey_iff m k).2 hmem)
    simp [hk, List.nodup_append, h, List.disjoint_singleton, hk']

/-! ### Lemmas about `parse_package_json` -/

lemma parseFold_cons (acc : List (String × String)) (b : Blob) (bs : List Blob) :
    parseFold acc (b :: bs) =
      parseFold
        (if pyStartsWith b.path "meta/" then acc
         else dictInsert acc b.path b.source_path) bs := by
  simp [parseFold]

lemma parseFold_keys (blobs : List Blob) :
    ∀ acc : List (String × String), (keysOf acc).Nodup →
      (keysOf (parseFold acc blobs)).Nodup ∧
      ∀ p, p ∈ keysOf (parseFold acc blobs) ↔
        p ∈ keysOf acc ∨
          ∃ b ∈ blobs, b.path = p ∧ pyStartsWith b.path "meta/" = false := by
  induction blobs with
  | nil =>
      intro acc hacc
      exact ⟨hacc, by simp [parseFold]⟩
  | cons b bs ih =>
      intro acc hacc
      rw [parseFold_cons]
      by_cases hb : pyStartsWith b.path "meta/"
      · simp only [hb, if_pos]
        obtain ⟨h1, h2⟩ := ih acc hacc
        refine ⟨h1, fun p => ?_⟩
        rw [h2 p]
        constructor
        · rintro (hp | ⟨b', hb', rfl, hb2⟩)
          · exact Or.inl hp
          · exact Or.inr ⟨b', List.mem_cons_of_mem _ hb', rfl, hb2⟩
        · rintro (hp | ⟨b', hb', rfl, hb2⟩)
          · exact Or.inl hp
          · rcases List.mem_cons.1 hb' with rfl | hb'
            · rw [hb] at hb2; cases hb2
            · exact Or.inr ⟨b', hb', rfl, hb2⟩
      · simp only [hb, if_neg, if_false, Bool.not_eq_true]
        obtain ⟨h1, h2⟩ :=
          ih (dictInsert acc b.path b.source_path)
            (nodup_keysOf_dictInsert _ _ _ hacc)
        refine ⟨h1, fun p => ?_⟩
        rw [h2 p, mem_keysOf_dictInsert]
        constructor
        · rintro ((hp | rfl) | ⟨b', hb', rfl, hb2⟩)
          · exact Or.inl hp
          · exact Or.inr ⟨b, List.mem_cons_self _ _, rfl,
              by simpa using hb⟩
          · exact Or.inr ⟨b', List.mem_cons_of_mem _ hb', rfl, hb2⟩
        · rintro (hp | ⟨b', hb', rfl, hb2⟩)
          · exact Or.inl (Or.inl hp)
          · rcases List.mem_cons.1 hb' with rfl | hb'
            · exact Or.inl (Or.inr rfl)
            · exact Or.inr ⟨b', hb', rfl, hb2⟩

lemma parse_package_json_keys (blobs : List Blob) :
    (keysOf (parse_package_json blobs)).Nodup ∧
      ∀ p, p ∈ keysOf (parse_package_json blobs) ↔
        ∃ b ∈ blobs, b.path = p ∧ pyStartsWith b.path "meta/" = false := by
  obtain ⟨h1, h2⟩ := parseFold_keys blobs [] (by simp [keysOf])
  refine ⟨h1, fun p => ?_⟩
  rw [parse_package_json, h2 p]
  simp [keysOf]

/-- The retained virtual paths of the manifest, in the order they are read. -/
def retainedPaths (blobs : List Blob) : List String :=
  (blobs.filter fun b => !(pyStartsWith b.path "meta/")).map Blob.path

lemma parseFold_keys_order (blobs : List Blob) :
    ∀ acc : List (String × String),
      (∀ p ∈ keysOf acc, p ∉ retainedPaths blobs) →
      (retainedPaths blobs).Nodup →
      keysOf (parseFold acc blobs) = keysOf acc ++ retainedPaths blobs := by
  induction blobs with
  | nil =>
      intro acc _ _
      simp [parseFold, retainedPaths]
  | cons b bs ih =>
      intro acc hdis hnd
      rw [parseFold_cons]
      by_cases hb : pyStartsWith b.path "meta/"
      · have h1 : retainedPaths (b :: bs) = retainedPaths bs := by
          simp [retainedPaths, hb]
        rw [h1] at hdis hnd
        simpa [hb, h1] using ih acc hdis hnd
      · have h1 : retainedPaths (b :: bs) = b.path :: retainedPaths bs := by
          simp [retainedPaths, hb]
        rw [h1] at hdis hnd
        have hbp : b.path ∉ keysOf acc := by
          intro hmem
          exact hdis _ hmem (List.mem_cons_self _ _)
        have hnk : ¬ (hasKey acc b.path = true) := fun h =>
          hbp ((hasKey_iff acc b.path).1 h)
        have hkeys :
            keysOf (dictInsert acc b.path b.source_path) =
              keysOf acc ++ [b.path] := by
          rw [keysOf_dictInsert]
          simp [Bool.eq_false_iff.2 hnk, hnk]
        rw [List.nodup_cons] at hnd
        have hdis' :
            ∀ p ∈ keysOf (dictInsert acc b.path b.source_path),
              p ∉ retainedPaths bs := by
          intro p hp
          rw [hkeys] at hp
          rcases List.mem_append.1 hp with hp | hp
          · exact fun hmem =>
              hdis _ hp (List.mem_cons_of_mem _ hmem)
          · rcases List.mem_singleton.1 hp with rfl
            exact hnd.1
        rw [if_neg (by simpa using hb), ih _ hdis' hnd.2, hkeys, h1]
        simp

lemma parse_package_json_keys_order (blobs : List Blob)
    (hnd : (retainedPaths blobs).Nodup) :
    keysOf (parse_package_json blobs) = retainedPaths blobs := by
  have := parseFold_keys_order blobs [] (by simp [keysOf]) hnd
  simpa [parse_package_json, keysOf] using this

/-! ### Lemmas about the copy loop -/

/-- Relation between a pre-copy manifest entry and its rewritten form: the
key is unchanged and the value is rewritten to the stripped source path. -/
def entryRewrites (e q : String × String) : Prop :=
  e.1 = q.1 ∧ pathStripperGroup1 e.2 = some q.2

lemma copyLoop_log (w : World) :
    ∀ (entries dir : List (String × String)) (log : List FsWrite)
      (acc : List (String × String)),
      ∃ nw : List FsWrite,
        (copyLoop w entries dir log acc).1 = log ++ nw ∧
        ∀ x ∈ nw, x.kind = WriteKind.fileCopy := by
  intro entries
  induction entries with
  | nil =>
      intro dir log acc
      exact ⟨[], by simp [copyLoop], by simp⟩
  | cons e rest ih =>
      intro dir log acc
      obtain ⟨k, src⟩ := e
      cases hg : pathStripperGroup1 src with
      | none =>
          refine ⟨[], ?_, by simp⟩
          simp [copyLoop, hg]
      | some g =>
          by_cases hs : w.srcExists src = true
          · by_cases hsl : leadsWith ['/'] g.data = true
            · have hstep : copyLoop w ((k, src) :: rest) dir log acc =
                  copyLoop w rest dir
                    (log ++ [⟨WriteKind.fileCopy, g, src⟩]) (acc ++ [(k, g)]) := by
                simp only [copyLoop, hg]
                rw [if_pos hs, if_pos hsl]
              obtain ⟨nw, h1, h2⟩ :=
                ih dir (log ++ [⟨WriteKind.fileCopy, g, src⟩]) (acc ++ [(k, g)])
              refine ⟨⟨WriteKind.fileCopy, g, src⟩ :: nw, ?_, ?_⟩
              · rw [hstep, h1]
                simp
              · intro x hx
                rcases List.mem_cons.1 hx with rfl | hx
                · rfl
                · exact h2 x hx
            · have hstep : copyLoop w ((k, src) :: rest) dir log acc =
                  copyLoop w rest (dictInsert dir g src)
                    (log ++ [⟨WriteKind.fileCopy, w.output_dir ++ "/" ++ g, src⟩])
                    (acc ++ [(k, g)]) := by
                simp only [copyLoop, hg]
                rw [if_pos hs, if_neg hsl]
              obtain ⟨nw, h1, h2⟩ :=
                ih (dictInsert dir g src)
                  (log ++ [⟨WriteKind.fileCopy, w.output_dir ++ "/" ++ g, src⟩])
                  (acc ++ [(k, g)])
              refine ⟨⟨WriteKind.fileCopy, w.output_dir ++ "/" ++ g, src⟩ :: nw,
                ?_, ?_⟩
              · rw [hstep, h1]
                simp
              · intro x hx
                rcases List.mem_cons.1 hx with rfl | hx
                · rfl
                · exact h2 x hx
          · refine ⟨[], ?_, by simp⟩
            simp [copyLoop, hg, hs]

lemma copyLoop_ok (w : World) :
    ∀ (entries dir : List (String × String)) (log : List FsWrite)
      (acc : List (String × String)) (log' : List FsWrite)
      (dir' acc' : List (String × String)),
      copyLoop w entries dir log acc = (log', Except.ok (dir', acc')) →
      ∃ delta : List (String × String),
        acc' = acc ++ delta ∧
        List.Forall₂ entryRewrites entries delta ∧
        ∀ p, p ∈ keysOf dir' ↔ p ∈ keysOf dir ∨
          ∃ q ∈ delta, q.2 = p ∧ leadsWith ['/'] q.2.data = false := by
  intro entries
  induction entries with
  | nil =>
      intro dir log acc log' dir' acc' h
      simp only [copyLoop, Prod.mk.injEq, Except.ok.injEq] at h
      obtain ⟨-, h2, h3⟩ := h
      refine ⟨[], by simp [h3.symm], List.Forall₂.nil, fun p => ?_⟩
      simp [h2]
  | cons e rest ih =>
      intro dir log acc log' dir' acc' h
      obtain ⟨k, src⟩ := e
      cases hg : pathStripperGroup1 src with
      | none => simp [copyLoop, hg] at h
      | some g =>
          by_cases hs : w.srcExists src = true
          · by_cases hsl : leadsWith ['/'] g.data = true
            · have hstep : copyLoop w ((k, src) :: rest) dir log acc =
                  copyLoop w rest dir
                    (log ++ [⟨WriteKind.fileCopy, g, src⟩]) (acc ++ [(k, g)]) := by
                simp only [copyLoop, hg]
                rw [if_pos hs, if_pos hsl]
              rw [hstep] at h
              obtain ⟨delta', h1, h2, h3⟩ := ih _ _ _ _ _ _ h
              refine ⟨(k, g) :: delta', ?_, ?_, fun p => ?_⟩
              · rw [h1]
                simp
              · exact List.Forall₂.cons ⟨rfl, hg⟩ h2
              · rw [h3 p]
                constructor
                · rintro (hp | ⟨q, hq, hq2⟩)
                  · exact Or.inl hp
                  · exact Or.inr ⟨q, List.mem_cons_of_mem _ hq, hq2⟩
                · rintro (hp | ⟨q, hq, hq2, hq3⟩)
                  · exact Or.inl hp
                  · rcases List.mem_cons.1 hq with rfl | hq
                    · rw [hsl] at hq3
                      cases hq3
                    · exact Or.inr ⟨q, hq, hq2, hq3⟩
            · have hsl' : leadsWith ['/'] g.data = false := by
                simpa using hsl
              have hstep : copyLoop w ((k, src) :: rest) dir log acc =
                  copyLoop w rest (dictInsert dir g src)
                    (log ++ [⟨WriteKind.fileCopy, w.output_dir ++ "/" ++ g, src⟩])
                    (acc ++ [(k, g)]) := by
                simp only [copyLoop, hg]
                rw [if_pos hs, if_neg hsl]
              rw [hstep] at h
              obtain ⟨delta', h1, h2, h3⟩ := ih _ _ _ _ _ _ h
              refine ⟨(k, g) :: delta', ?_, ?_, fun p => ?_⟩
              · rw [h1]
                simp
              · exact List.Forall₂.cons ⟨rfl, hg⟩ h2
              · rw [h3 p, mem_keysOf_dictInsert]
                constructor
                · rintro ((hp | rfl) | ⟨q, hq, hq2⟩)
                  · exact Or.inl hp
                  · exact Or.inr ⟨_, List.mem_cons_self _ _, rfl, hsl'⟩
                  · exact Or.inr ⟨q, List.mem_cons_of_mem _ hq, hq2⟩
                · rintro (hp | ⟨q, hq, hq2, hq3⟩)
                  · exact Or.inl (Or.inl hp)
                  · rcases List.mem_cons.1 hq with rfl | hq
                    · exact Or.inl (Or.inr hq2.symm)
                    · exact Or.inr ⟨q, hq, hq2, hq3⟩
          · simp [copyLoop, hg, hs] at h

lemma forall2_keysOf {entries delta : List (String × String)}
    (h : List.Forall₂ entryRewrites entries delta) :
    keysOf delta = keysOf entries := by
  induction h with
  | nil => rfl
  | cons h1 _ ih =>
      simp only [keysOf, List.map_cons] at ih ⊢
      rw [ih, h1.1]

/-! ### Lemmas about the archive filters -/

lemma mem_keysOf_filter_ne (m : List (String × String)) (k p : String) :
    p ∈ keysOf (m.filter fun q => !(q.1 == k)) ↔ p ∈ keysOf m ∧ p ≠ k := by
  simp only [keysOf, List.mem_map, List.mem_filter]
  constructor
  · rintro ⟨q, ⟨hq, hne⟩, rfl⟩
    refine ⟨⟨q, hq, rfl⟩, ?_⟩
    simpa using hne
  · rintro ⟨⟨q, hq, rfl⟩, hne⟩
    exact ⟨q, ⟨hq, by simpa using hne⟩, rfl⟩

lemma mem_keysOf_filter_eq (m : List (String × String)) (k p : String) :
    p ∈ keysOf (m.filter fun q => q.1 == k) ↔ p ∈ keysOf m ∧ p = k := by
  simp only [keysOf, List.mem_map, List.mem_filter]
  constructor
  · rintro ⟨q, ⟨hq, he⟩, rfl⟩
    refine ⟨⟨q, hq, rfl⟩, ?_⟩
    simpa using he
  · rintro ⟨⟨q, hq, rfl⟩, he⟩
    exact ⟨q, ⟨hq, by simpa using he⟩, rfl⟩

/-! ### Inversion of a successful run -/

lemma gatherRun_ok_inv (w : World) (r : RunResult)
    (h : (gatherRun w).2 = Except.ok r) :
    ∃ (blobs : List Blob) (log : List FsWrite)
      (dir1 : List (String × String)),
      w.manifestJson = some blobs ∧
      copyLoop w (parse_package_json blobs)
          (dictInsert [] "meta.far" w.meta_far_path)
          [⟨WriteKind.fileCopy, w.output_dir ++ "/meta.far", w.meta_far_path⟩]
          [] = (log, Except.ok (dir1, r.finalManifest)) ∧
      r.manifestContent = write_new_manifest_content r.finalManifest ∧
      r.archive = (dirBeforeArchive dir1 r.finalManifest).filter
          (fun q => !(q.1 == "package.tar")) ∧
      r.finalDir = (dirBeforeArchive dir1 r.finalManifest).filter
          (fun q => q.1 == "package.tar") ∧
      r.depfileContent = w.output_dir ++ "/package.tar" ++ ": " ++
          String.intercalate " " ((parse_package_json blobs).map Prod.snd) ++
          "\n" ∧
      (gatherRun w).1 = log ++
          [⟨WriteKind.manifestFile, w.output_dir ++ "/package.manifest",
              r.manifestContent⟩,
            ⟨WriteKind.tarFile, w.output_dir ++ "/package.tar", ""⟩,
            ⟨WriteKind.depFile, w.depfile, r.depfileContent⟩] := by
  cases hi : gatherInit w with
  | error e =>
      have hr : gatherRun w = ([], Except.error e) := by
        unfold gatherRun; rw [hi]
      rw [hr] at h
      simp at h
  | ok u =>
      cases hm : w.manifestJson with
      | none =>
          have hr : gatherRun w = ([], Except.error RunError.malformedManifest) := by
            unfold gatherRun; rw [hi, hm]
          rw [hr] at h
          simp at h
      | some blobs =>
          have hr : gatherRun w = runStages w blobs := by
            unfold gatherRun; rw [hi, hm]
          rw [hr] at h ⊢
          rcases hcl : copyLoop w (parse_package_json blobs)
              (dictInsert [] "meta.far" w.meta_far_path)
              [⟨WriteKind.fileCopy, w.output_dir ++ "/meta.far",
                  w.meta_far_path⟩] [] with ⟨log, res⟩
          cases res with
          | error e =>
              have hrs : runStages w blobs = (log, Except.error e) := by
                unfold runStages; rw [hcl]
              rw [hrs] at h
              simp at h
          | ok pr =>
              obtain ⟨dir1, newManifest⟩ := pr
              have hrs : runStages w blobs =
                  finishStages w
                    (String.intercalate " "
                      ((parse_package_json blobs).map Prod.snd))
                    log dir1 newManifest := by
                unfold runStages; rw [hcl]
              rw [hrs] at h ⊢
              unfold finishStages at h
              dsimp only at h
              rw [Except.ok.injEq] at h
              subst h
              exact ⟨blobs, log, dir1, rfl, hcl, rfl, rfl, rfl, rfl, rfl⟩

/-! ### Lemmas about the path stripper -/

lemma countDotDotSlash_dotdots (k : Nat) (l : List Char) :
    countDotDotSlash (dotdots k ++ l) = k + countDotDotSlash l := by
  induction k with
  | zero => simp [dotdots]
  | succ n ih =>
      simp [dotdots, countDotDotSlash, ih]
      omega

lemma countDotDotSlash_eq_zero (l : List Char)
    (h : leadsWith ['.', '.', '/'] l = false) : countDotDotSlash l = 0 := by
  rcases l with _ | ⟨c1, _ | ⟨c2, _ | ⟨c3, rest⟩⟩⟩
  · rfl
  · rfl
  · rfl
  · unfold countDotDotSlash
    rw [if_neg]
    rintro ⟨rfl, rfl, rfl⟩
    simp [leadsWith] at h

lemma drop_dotdots (k : Nat) (l : List Char) :
    (dotdots k ++ l).drop (3 * k) = l := by
  induction k with
  | zero => simp [dotdots]
  | succ n ih =>
      simp only [dotdots, List.cons_append]
      rw [show 3 * (n + 1) = 3 * n + 1 + 1 + 1 from by ring]
      simpa [List.drop_succ_cons] using ih

lemma tryReps_eval (l : List Char) (k : Nat) (g : List Char)
    (h : tryHere (l.drop (3 * k)) = some g) : tryReps l k = some g := by
  cases k with
  | zero =>
      unfold tryReps
      simpa using h
  | succ n =>
      unfold tryReps
      rw [h]

lemma leadsWith_takeWhile (pat l : List Char) (q : Char → Bool)
    (h : leadsWith pat (l.takeWhile q) = true) : leadsWith pat l = true := by
  induction pat generalizing l with
  | nil => rfl
  | cons a as ih =>
      cases l with
      | nil => simpa using h
      | cons b bs =>
          by_cases hb : q b = true
          · have ht : (b :: bs).takeWhile q = b :: bs.takeWhile q := by
              simp [List.takeWhile_cons, hb]
            rw [ht] at h
            simp only [leadsWith, Bool.and_eq_true, beq_iff_eq] at h ⊢
            exact ⟨h.1, ih _ h.2⟩
          · have ht : (b :: bs).takeWhile q = [] := by
              simp [List.takeWhile_cons, hb]
            rw [ht] at h
            simp [leadsWith] at h

/-- Main structural property of the path stripper: on an input made of `k`
leading `../` segments, at most one `/`, and a remainder that is nonempty
and does not itself begin with `/`, a newline, or `../`, the capture is the
remainder up to the first newline, and it begins with neither `../` nor a
root separator. -/
lemma pathStripper_canonical (k : Nat) (slash : Bool) (c : Char)
    (rest : List Char) (hc1 : c ≠ '/') (hc2 : c ≠ '\n')
    (hdd : leadsWith ['.', '.', '/'] (c :: rest) = false) :
    pathStripperGroup1
        (String.mk (dotdots k ++ ((if slash then ['/'] else []) ++ c :: rest)))
      = some (String.mk (takeLine (c :: rest)))
    ∧ leadsWith ['.', '.', '/'] (takeLine (c :: rest)) = false
    ∧ leadsWith ['/'] (takeLine (c :: rest)) = false := by
  have hmid0 : countDotDotSlash ((if slash then ['/'] else []) ++ c :: rest) = 0 := by
    cases slash with
    | true =>
        apply countDotDotSlash_eq_zero
        simp [leadsWith]
    | false =>
        simpa using countDotDotSlash_eq_zero _ hdd
  have hcount :
      countDotDotSlash (dotdots k ++ ((if slash then ['/'] else []) ++ c :: rest))
        = k := by
    rw [countDotDotSlash_dotdots, hmid0]
    omega
  have hhere :
      tryHere ((if slash then ['/'] else []) ++ c :: rest)
        = some (takeLine (c :: rest)) := by
    cases slash with
    | true => simp [tryHere, hc2]
    | false => simp [tryHere, hc1, hc2]
  have htl : takeLine (c :: rest) = c :: rest.takeWhile (fun x => x ≠ '\n') := by
    simp [takeLine, List.takeWhile_cons, hc2]
  refine ⟨?_, ?_, ?_⟩
  · unfold pathStripperGroup1
    have hdata :
        (String.mk (dotdots k ++ ((if slash then ['/'] else []) ++ c :: rest))).data
          = dotdots k ++ ((if slash then ['/'] else []) ++ c :: rest) := rfl
    rw [hdata, hcount, tryReps_eval _ _ _ (by rw [drop_dotdots, hhere])]
    rfl
  · cases hlw : leadsWith ['.', '.', '/'] (takeLine (c :: rest)) with
    | false => rfl
    | true =>
        have h2 :=
          leadsWith_takeWhile ['.', '.', '/'] (c :: rest)
            (fun x => decide (x ≠ '\n')) (by simpa [takeLine] using hlw)
        rw [hdd] at h2
        simp at h2
  · rw [htl]
    simp [leadsWith, beq_eq_false_iff_ne, Ne.symm hc1]

/-! ### Further helper lemmas -/

lemma parseFold_eq (blobs : List Blob) :
    ∀ acc : List (String × String),
      (∀ p ∈ keysOf acc, p ∉ retainedPaths blobs) →
      (retainedPaths blobs).Nodup →
      parseFold acc blobs =
        acc ++ (blobs.filter fun b => !(pyStartsWith b.path "meta/")).map
          (fun b => (b.path, b.source_path)) := by
  induction blobs with
  | nil =>
      intro acc _ _
      simp [parseFold]
  | cons b bs ih =>
      intro acc hdis hnd
      rw [parseFold_cons]
      by_cases hb : pyStartsWith b.path "meta/"
      · have h1 : retainedPaths (b :: bs) = retainedPaths bs := by
          simp [retainedPaths, hb]
        rw [h1] at hdis hnd
        simpa [hb] using ih acc hdis hnd
      · have h1 : retainedPaths (b :: bs) = b.path :: retainedPaths bs := by
          simp [retainedPaths, hb]
        rw [h1] at hdis hnd
        have hbp : b.path ∉ keysOf acc := fun hmem =>
          hdis _ hmem (List.mem_cons_self _ _)
        have hnk : ¬ (hasKey acc b.path = true) := fun hk =>
          hbp ((hasKey_iff acc b.path).1 hk)
        have hins : dictInsert acc b.path b.source_path =
            acc ++ [(b.path, b.source_path)] := by
          unfold dictInsert
          rw [if_neg hnk]
        rw [List.nodup_cons] at hnd
        have hdis' :
            ∀ p ∈ keysOf (dictInsert acc b.path b.source_path),
              p ∉ retainedPaths bs := by
          intro p hp
          rw [mem_keysOf_dictInsert] at hp
          rcases hp with hp | rfl
          · exact fun hmem => hdis _ hp (List.mem_cons_of_mem _ hmem)
          · exact hnd.1
        rw [if_neg (by simpa using hb), ih _ hdis' hnd.2, hins]
        simp [hb]

lemma parse_package_json_eq (blobs : List Blob)
    (hnd : (retainedPaths blobs).Nodup) :
    parse_package_json blobs =
      (blobs.filter fun b => !(pyStartsWith b.path "meta/")).map
        (fun b => (b.path, b.source_path)) := by
  have := parseFold_eq blobs [] (by simp [keysOf]) hnd
  simpa [parse_package_json] using this

lemma gatherInit_error_isValidation (w : World) (e : RunError)
    (h : gatherInit w = Except.error e) : e.isValidation = true := by
  unfold gatherInit at h
  split_ifs at h <;> injection h with h <;> subst h <;> rfl

lemma gatherInit_ok_inv (w : World) (u : Unit)
    (h : gatherInit w = Except.ok u) :
    w.package_json_path ≠ "" ∧ w.packageJsonExists = true ∧
      w.meta_far_path ≠ "" ∧ w.metaFarExists = true ∧
      w.output_dir ≠ "" ∧ w.depfile ≠ "" := by
  unfold gatherInit at h
  split_ifs at h with h1 h2 h3 h4
  exact ⟨h1.1, h1.2, h2.1, h2.2, h3, h4⟩

lemma gatherRun_error_no_depfile (w : World) (e : RunError)
    (h : (gatherRun w).2 = Except.error e) :
    ∀ x ∈ (gatherRun w).1, x.kind ≠ WriteKind.depFile := by
  cases hi : gatherInit w with
  | error e' =>
      have hr : gatherRun w = ([], Except.error e') := by
        unfold gatherRun; rw [hi]
      rw [hr]
      simp
  | ok u =>
      cases hm : w.manifestJson with
      | none =>
          have hr : gatherRun w = ([], Except.error RunError.malformedManifest) := by
            unfold gatherRun; rw [hi, hm]
          rw [hr]
          simp
      | some blobs =>
          have hr : gatherRun w = runStages w blobs := by
            unfold gatherRun; rw [hi, hm]
          rw [hr] at h ⊢
          rcases hcl : copyLoop w (parse_package_json blobs)
              (dictInsert [] "meta.far" w.meta_far_path)
              [⟨WriteKind.fileCopy, w.output_dir ++ "/meta.far",
                  w.meta_far_path⟩] [] with ⟨log, res⟩
          cases res with
          | ok pr =>
              obtain ⟨dir1, newManifest⟩ := pr
              have hrs : runStages w blobs =
                  finishStages w
                    (String.intercalate " "
                      ((parse_package_json blobs).map Prod.snd))
                    log dir1 newManifest := by
                unfold runStages; rw [hcl]
              rw [hrs] at h
              unfold finishStages at h
              dsimp only at h
              simp at h
          | error e' =>
              have hrs : runStages w blobs = (log, Except.error e') := by
                unfold runStages; rw [hcl]
              rw [hrs]
              obtain ⟨nw, hlog, hkinds⟩ :=
                copyLoop_log w (parse_package_json blobs)
                  (dictInsert [] "meta.far" w.meta_far_path)
                  [⟨WriteKind.fileCopy, w.output_dir ++ "/meta.far",
                      w.meta_far_path⟩] []
              rw [hcl] at hlog
              dsimp only at hlog ⊢
              rw [hlog]
              intro x hx
              rcases List.mem_append.1 hx with hx | hx
              · rcases List.mem_singleton.1 hx with rfl
                simp
              · rw [hkinds x hx]
                simp

/-! ### Claims -/

/-- Claim C1, counterexamples: the path stripper's capture CAN begin with
`../` or with a root separator.  `/../foo` yields `../foo`, `//foo` yields
`/foo`, and `../../` yields `../`, so the claimed invariant fails on the
very inputs the claim quantifies over. -/
theorem claim_C1_counterexample :
    (pathStripperGroup1 "/../foo" = some "../foo"
      ∧ leadsWith ['.', '.', '/'] ("../foo").data = true)
    ∧ (pathStripperGroup1 "//foo" = some "/foo"
      ∧ leadsWith ['/'] ("/foo").data = true)
    ∧ (pathStripperGroup1 "../../" = some "../"
      ∧ leadsWith ['.', '.', '/'] ("../").data = true) := by
  decide

/-- Claim C1, amended: for inputs shaped as the stripper expects — `k`
leading `../` segments, at most one root separator, then a nonempty
remainder that does not itself begin with `/`, `../`, or a newline — the
capture is that remainder (up to a newline) and begins with neither `../`
nor a root separator.  For other inputs, such as `/../foo`, the invariant
fails. -/
theorem claim_C1 (k : Nat) (slash : Bool) (c : Char) (rest : List Char)
    (hc1 : c ≠ '/') (hc2 : c ≠ '\n')
    (hdd : leadsWith ['.', '.', '/'] (c :: rest) = false) :
    ∃ g : String,
      pathStripperGroup1
          (String.mk (dotdots k ++ ((if slash then ['/'] else []) ++ c :: rest)))
        = some g
      ∧ leadsWith ['.', '.', '/'] g.data = false
      ∧ leadsWith ['/'] g.data = false := by
  obtain ⟨h1, h2, h3⟩ := pathStripper_canonical k slash c rest hc1 hc2 hdd
  exact ⟨_, h1, h2, h3⟩

/-- Witness for C1 at the concrete input `../../out/obj/app`. -/
theorem claim_C1_witness :
    ('o' ≠ '/' ∧ 'o' ≠ '\n'
      ∧ leadsWith ['.', '.', '/'] ('o' :: "ut/obj/app".data) = false)
    ∧ ∃ g : String,
        pathStripperGroup1
            (String.mk
              (dotdots 2 ++ ((if false then ['/'] else []) ++ 'o' :: "ut/obj/app".data)))
          = some g
        ∧ leadsWith ['.', '.', '/'] g.data = false
        ∧ leadsWith ['/'] g.data = false :=
  ⟨⟨by decide, by decide, by decide⟩,
    claim_C1 2 false 'o' "ut/obj/app".data (by decide) (by decide) (by decide)⟩

/-- Claim C6: a virtual path is a key of the output manifest mapping exactly
when some blob has it and it is not under `meta/`; the keys are free of
duplicates; and every retained path occurs exactly once. -/
theorem claim_C6 (blobs : List Blob) :
    (keysOf (parse_package_json blobs)).Nodup
    ∧ (∀ p, p ∈ keysOf (parse_package_json blobs) ↔
        ∃ b ∈ blobs, b.path = p ∧ pyStartsWith b.path "meta/" = false)
    ∧ ∀ p, (∃ b ∈ blobs, b.path = p ∧ pyStartsWith b.path "meta/" = false) →
        (keysOf (parse_package_json blobs)).count p = 1 := by
  obtain ⟨h1, h2⟩ := parse_package_json_keys blobs
  exact ⟨h1, h2, fun p hp =>
    List.count_eq_one_of_mem h1 ((h2 p).2 hp)⟩

/-- Decidable equality of run outcomes, used to evaluate concrete runs. -/
instance : DecidableEq (Except RunError RunResult)
  | Except.ok x, Except.ok y =>
      if h : x = y then Decidable.isTrue (congrArg Except.ok h)
      else Decidable.isFalse (fun hc => h (Except.ok.inj hc))
  | Except.ok x, Except.error y =>
      Decidable.isFalse (fun hc => Except.noConfusion hc)
  | Except.error x, Except.ok y =>
      Decidable.isFalse (fun hc => Except.noConfusion hc)
  | Except.error x, Except.error y =>
      if h : x = y then Decidable.isTrue (congrArg Except.error h)
      else Decidable.isFalse (fun hc => h (Except.error.inj hc))

/-- A 101-character source path (which is its own canonical form). -/
def longNameC8 : String := String.mk (List.replicate 101 'a')

/-- World for the long-path scenario of claim C8. -/
def wC8 : World :=
  ⟨"p.json", "meta.far", "o", "dep.d", true, true,
    some [⟨"bin/l", longNameC8⟩], fun x => true⟩

/-- The result the long-path run produces. -/
def rC8 : RunResult :=
  ⟨[("bin/l", longNameC8)],
    "bin/l=" ++ longNameC8 ++ "\nmeta/package=meta.far\n",
    [("meta.far", "meta.far"), (longNameC8, longNameC8),
      ("package.manifest", "bin/l=" ++ longNameC8 ++ "\nmeta/package=meta.far\n")],
    [("package.tar", "")],
    "o/package.tar: " ++ longNameC8 ++ "\n"⟩

set_option maxRecDepth 8192 in
/-- Claim C8, counterexample: a canonical path of 101 characters does not
fit the unextended 100-character header limit, yet the run succeeds — the
archiver does not fail loudly, refuting the claimed disjunction. -/
theorem claim_C8_counterexample :
    (gatherRun wC8).2 = Except.ok rC8
    ∧ longNameC8 ∈ keysOf rC8.archive
    ∧ ¬ (longNameC8.length ≤ 100) := by
  refine ⟨by decide, by decide, by decide⟩

/-- Claim C8, amended: the archiver stage never fails (in particular not on
long names); a member name of at most 100 characters is stored in the plain
unextended header, and a longer one is stored untruncated through the GNU
long-name record of the selected GNU format, rather than rejected. -/
theorem claim_C8 (w : World) (deps : String) (log : List FsWrite)
    (dir1 nm : List (String × String)) :
    (∃ r, (finishStages w deps log dir1 nm).2 = Except.ok r)
    ∧ ∀ name : String,
        (gnuNameRepr name = TarNameRepr.plainHeader ↔ name.length ≤ 100)
        ∧ (gnuNameRepr name = TarNameRepr.gnuLongNameRecord ↔ 100 < name.length) := by
  refine ⟨⟨_, rfl⟩, fun name => ?_⟩
  unfold gnuNameRepr
  by_cases h : name.length ≤ 100
  · rw [if_pos h]
    exact ⟨⟨fun _ => h, fun _ => rfl⟩,
      ⟨fun hc => TarNameRepr.noConfusion hc, fun hlt => absurd h (by omega)⟩⟩
  · rw [if_neg h]
    exact ⟨⟨fun hc => TarNameRepr.noConfusion hc, fun hle => absurd hle h⟩,
      ⟨fun _ => by omega, fun _ => rfl⟩⟩

/-- World for the collision scenario of claim C10: two retained entries
whose source paths `../x/f` and `/x/f` both strip to `x/f`. -/
def wC10 : World :=
  ⟨"p.json", "m.far", "o", "dep.d", true, true,
    some [⟨"a", "../x/f"⟩, ⟨"b", "/x/f"⟩], fun x => true⟩

/-- The result the collision run produces. -/
def rC10 : RunResult :=
  ⟨[("a", "x/f"), ("b", "x/f")],
    "a=x/f\nb=x/f\nmeta/package=meta.far\n",
    [("meta.far", "m.far"), ("x/f", "/x/f"),
      ("package.manifest", "a=x/f\nb=x/f\nmeta/package=meta.far\n")],
    [("package.tar", "")],
    "o/package.tar: ../x/f /x/f\n"⟩

/-- Claim C10: with two retained entries whose source paths `../x/f` and
`/x/f` both strip to `x/f`, the run succeeds with no error, both copies are
performed to the same output location (the later one overwriting the
earlier), the archive holds a single `x/f` member whose content comes from
the later source, and both virtual paths map to the identical canonical
path in the final manifest. -/
theorem claim_C10 :
    (gatherRun wC10).2 = Except.ok rC10
    ∧ rC10.finalManifest = [("a", "x/f"), ("b", "x/f")]
    ∧ rC10.archive = [("meta.far", "m.far"), ("x/f", "/x/f"),
        ("package.manifest", "a=x/f\nb=x/f\nmeta/package=meta.far\n")]
    ∧ ((gatherRun wC10).1.filter fun x => x.path == "o/x/f") =
        [⟨WriteKind.fileCopy, "o/x/f", "../x/f"⟩,
          ⟨WriteKind.fileCopy, "o/x/f", "/x/f"⟩] := by
  refine ⟨rfl, by decide, by decide, by decide⟩

/-- Claim C2: the fully worked scenario — manifest blobs `bin/app` (source
`../../out/obj/app`) and `meta/contents` (skipped), metadata archive
present.  The output manifest consists of `bin/app=out/obj/app` and the
fixed `meta/package=meta.far` line with no `meta/contents` entry, the
archive contains `out/obj/app` and `meta.far`, and the depfile reads
`<output>/package.tar: ../../out/obj/app`. -/
theorem claim_C2 (od pj mf df : String)
    (h1 : pj ≠ "") (h2 : mf ≠ "") (h3 : od ≠ "") (h4 : df ≠ "") :
    ∃ r : RunResult,
      (gatherRun ⟨pj, mf, od, df, true, true,
          some [⟨"bin/app", "../../out/obj/app"⟩, ⟨"meta/contents", "ignored"⟩],
          fun x => true⟩).2 = Except.ok r
      ∧ r.manifestContent = "bin/app=out/obj/app\nmeta/package=meta.far\n"
      ∧ "meta/contents" ∉ keysOf r.finalManifest
      ∧ "out/obj/app" ∈ keysOf r.archive
      ∧ "meta.far" ∈ keysOf r.archive
      ∧ r.depfileContent =
          od ++ "/package.tar" ++ ": " ++ "../../out/obj/app" ++ "\n" := by
  have hinit : gatherInit
      ⟨pj, mf, od, df, true, true,
        some [⟨"bin/app", "../../out/obj/app"⟩, ⟨"meta/contents", "ignored"⟩],
        fun x => true⟩ = Except.ok () := by
    unfold gatherInit
    rw [if_pos ⟨h1, rfl⟩, if_pos ⟨h2, rfl⟩, if_pos h3, if_pos h4]
  refine ⟨⟨[("bin/app", "out/obj/app")],
      "bin/app=out/obj/app\nmeta/package=meta.far\n",
      [("meta.far", mf), ("out/obj/app", "../../out/obj/app"),
        ("package.manifest", "bin/app=out/obj/app\nmeta/package=meta.far\n")],
      [("package.tar", "")],
      od ++ "/package.tar" ++ ": " ++ "../../out/obj/app" ++ "\n"⟩,
    ?_, rfl, ?_, ?_, ?_, rfl⟩
  · unfold gatherRun
    rw [hinit]
    rfl
  · simp [keysOf]
  · simp [keysOf]
  · simp [keysOf]

/-- Witness for C2 at concrete paths. -/
theorem claim_C2_witness :
    (("p.json" : String) ≠ "" ∧ ("meta.far" : String) ≠ ""
      ∧ ("outdir" : String) ≠ "" ∧ ("dep.d" : String) ≠ "")
    ∧ ∃ r : RunResult,
        (gatherRun ⟨"p.json", "meta.far", "outdir", "dep.d", true, true,
            some [⟨"bin/app", "../../out/obj/app"⟩, ⟨"meta/contents", "ignored"⟩],
            fun x => true⟩).2 = Except.ok r
        ∧ r.manifestContent = "bin/app=out/obj/app\nmeta/package=meta.far\n"
        ∧ "meta/contents" ∉ keysOf r.finalManifest
        ∧ "out/obj/app" ∈ keysOf r.archive
        ∧ "meta.far" ∈ keysOf r.archive
        ∧ r.depfileContent =
            "outdir" ++ "/package.tar" ++ ": " ++ "../../out/obj/app" ++ "\n" :=
  ⟨⟨by decide, by decide, by decide, by decide⟩,
    claim_C2 "outdir" "p.json" "meta.far" "dep.d"
      (by decide) (by decide) (by decide) (by decide)⟩

/-- Claim C5: a missing or malformed manifest, or a missing metadata archive,
makes the run fail with a validation error before any file is written. -/
theorem claim_C5 (w : World)
    (h : w.packageJsonExists = false ∨ w.package_json_path = "" ∨
         w.metaFarExists = false ∨ w.meta_far_path = "" ∨ w.manifestJson = none) :
    (gatherRun w).1 = [] ∧
      ∃ e, (gatherRun w).2 = Except.error e ∧ e.isValidation = true := by
  cases hi : gatherInit w with
  | error e =>
      have hr : gatherRun w = ([], Except.error e) := by
        unfold gatherRun; rw [hi]
      rw [hr]
      exact ⟨rfl, e, rfl, gatherInit_error_isValidation w e hi⟩
  | ok u =>
      obtain ⟨hp, hpe, hmf, hme, -, -⟩ := gatherInit_ok_inv w u hi
      have hnone : w.manifestJson = none := by
        rcases h with h | h | h | h | h
        · rw [hpe] at h; cases h
        · exact absurd h hp
        · rw [hme] at h; cases h
        · exact absurd h hmf
        · exact h
      have hr : gatherRun w = ([], Except.error RunError.malformedManifest) := by
        unfold gatherRun; rw [hi, hnone]
      rw [hr]
      exact ⟨rfl, RunError.malformedManifest, rfl, rfl⟩

/-- World for the C5 witness: the manifest file fails to parse. -/
def wC5 : World :=
  ⟨"p.json", "m.far", "o", "d", true, true, none, fun x => true⟩

/-- Witness for C5 at a concrete malformed-manifest world. -/
theorem claim_C5_witness :
    (wC5.packageJsonExists = false ∨ wC5.package_json_path = "" ∨
      wC5.metaFarExists = false ∨ wC5.meta_far_path = "" ∨ wC5.manifestJson = none)
    ∧ ((gatherRun wC5).1 = [] ∧
        ∃ e, (gatherRun wC5).2 = Except.error e ∧ e.isValidation = true) :=
  ⟨Or.inr (Or.inr (Or.inr (Or.inr rfl))),
    claim_C5 wC5 (Or.inr (Or.inr (Or.inr (Or.inr rfl))))⟩

/-- Claim C9: the process exits 0 on success and 1 on any error; on any
failure no depfile write happens, and on success the depfile write is the
last write, after every other stage's writes. -/
theorem claim_C9 (w : World) :
    (∀ e, (gatherRun w).2 = Except.error e →
        mainExit w = 1 ∧ ∀ x ∈ (gatherRun w).1, x.kind ≠ WriteKind.depFile)
    ∧ ∀ r, (gatherRun w).2 = Except.ok r →
        mainExit w = 0 ∧
          (gatherRun w).1.getLast? =
            some ⟨WriteKind.depFile, w.depfile, r.depfileContent⟩ := by
  constructor
  · intro e he
    refine ⟨?_, gatherRun_error_no_depfile w e he⟩
    unfold mainExit
    rw [he]
  · intro r hr
    obtain ⟨blobs, log, dir1, hm, hcl, hmc, har, hfd, hdc, hlog⟩ :=
      gatherRun_ok_inv w r hr
    refine ⟨?_, ?_⟩
    · unfold mainExit
      rw [hr]
    · rw [hlog, List.getLast?_append_of_ne_nil _ (by simp)]
      rfl

/-- World for the failing half of the C9 witness: empty manifest path. -/
def wC9bad : World :=
  ⟨"", "m.far", "o", "d", true, true, some [], fun x => true⟩

/-- World for the succeeding half of the C9 witness. -/
def wC9ok : World :=
  ⟨"p.json", "m.far", "o", "d", true, true, some [⟨"f", "g"⟩], fun x => true⟩

/-- The result of the succeeding C9 run. -/
def rC9 : RunResult :=
  ⟨[("f", "g")], "f=g\nmeta/package=meta.far\n",
    [("meta.far", "m.far"), ("g", "g"),
      ("package.manifest", "f=g\nmeta/package=meta.far\n")],
    [("package.tar", "")], "o/package.tar: g\n"⟩

/-- Witness for C9: a failing run exits 1 with no depfile write, a
succeeding run exits 0 with the depfile write last. -/
theorem claim_C9_witness :
    ((gatherRun wC9bad).2 = Except.error RunError.invalidPackageJsonPath
      ∧ (mainExit wC9bad = 1
        ∧ ∀ x ∈ (gatherRun wC9bad).1, x.kind ≠ WriteKind.depFile))
    ∧ ((gatherRun wC9ok).2 = Except.ok rC9
      ∧ (mainExit wC9ok = 0
        ∧ (gatherRun wC9ok).1.getLast? =
            some ⟨WriteKind.depFile, wC9ok.depfile, rC9.depfileContent⟩)) :=
  ⟨⟨by decide,
      (claim_C9 wC9bad).1 RunError.invalidPackageJsonPath (by decide)⟩,
    ⟨by decide, (claim_C9 wC9ok).2 rC9 (by decide)⟩⟩

/-- World for claim C3's concrete run. -/
def wC3 : World :=
  ⟨"p.json", "meta.far", "outdir", "dep.d", true, true,
    some [⟨"bin/app", "../../out/obj/app"⟩], fun x => true⟩

/-- The result of the C3 run. -/
def rC3 : RunResult :=
  ⟨[("bin/app", "out/obj/app")],
    "bin/app=out/obj/app\nmeta/package=meta.far\n",
    [("meta.far", "meta.far"), ("out/obj/app", "../../out/obj/app"),
      ("package.manifest", "bin/app=out/obj/app\nmeta/package=meta.far\n")],
    [("package.tar", "")],
    "outdir/package.tar: ../../out/obj/app\n"⟩

/-- Claim C3, counterexample: the archive also contains the manifest file
`package.manifest` itself, which is neither listed in the output manifest
nor the metadata copy — so the archive does not contain *exactly* the
listed files plus `meta.far`. -/
theorem claim_C3_counterexample :
    (gatherRun wC3).2 = Except.ok rC3
    ∧ "package.manifest" ∈ keysOf rC3.archive
    ∧ "package.manifest" ∉ rC3.finalManifest.map Prod.snd
    ∧ ("package.manifest" : String) ≠ "meta.far" := by
  refine ⟨by decide, by decide, by decide, by decide⟩

/-- Claim C3, amended: after a successful run the archive contains exactly
the manifest-listed canonical paths that do not begin with a root separator,
plus the metadata copy `meta.far`, PLUS the manifest file `package.manifest`
itself (and nothing else); a slash-leading canonical path (e.g. from source
`..///x`) is copied by `os.path.join` to an absolute location outside the
output directory and is never archived, though the manifest still lists it;
the archive excludes itself; and afterwards the output directory holds only
the archive `package.tar`. -/
theorem claim_C3 (w : World) (r : RunResult)
    (h : (gatherRun w).2 = Except.ok r) :
    (∀ p, p ∈ keysOf r.archive ↔
        (((p ∈ r.finalManifest.map Prod.snd ∧ leadsWith ['/'] p.data = false)
            ∨ p = "meta.far" ∨ p = "package.manifest")
          ∧ p ≠ "package.tar"))
    ∧ ∀ p, p ∈ keysOf r.finalDir ↔ p = "package.tar" := by
  obtain ⟨blobs, log, dir1, hm, hcl, hmc, har, hfd, hdc, hlog⟩ :=
    gatherRun_ok_inv w r h
  obtain ⟨delta, hacc, hf2, hdirmem⟩ := copyLoop_ok w _ _ _ _ _ _ _ hcl
  have hdelta : delta = r.finalManifest := by simpa using hacc.symm
  subst hdelta
  have hbase : ∀ p,
      p ∈ keysOf (dictInsert [] "meta.far" w.meta_far_path) ↔ p = "meta.far" := by
    intro p
    rw [mem_keysOf_dictInsert]
    simp [keysOf]
  have hsnd : ∀ p,
      (∃ q ∈ r.finalManifest, q.2 = p ∧ leadsWith ['/'] q.2.data = false) ↔
        (p ∈ r.finalManifest.map Prod.snd ∧ leadsWith ['/'] p.data = false) := by
    intro p
    constructor
    · rintro ⟨q, hq, rfl, h3⟩
      exact ⟨List.mem_map.2 ⟨q, hq, rfl⟩, h3⟩
    · rintro ⟨hp, h3⟩
      obtain ⟨q, hq, rfl⟩ := List.mem_map.1 hp
      exact ⟨q, hq, rfl, h3⟩
  have hdir1 : ∀ p, p ∈ keysOf dir1 ↔
      (p = "meta.far" ∨
        (p ∈ r.finalManifest.map Prod.snd ∧ leadsWith ['/'] p.data = false)) := by
    intro p
    rw [hdirmem p, hbase p, hsnd p]
  have hd3 : ∀ p, p ∈ keysOf (dirBeforeArchive dir1 r.finalManifest) ↔
      ((p ∈ keysOf dir1 ∨ p = "package.manifest") ∨ p = "package.tar") := by
    intro p
    unfold dirBeforeArchive
    rw [mem_keysOf_dictInsert, mem_keysOf_dictInsert]
  refine ⟨fun p => ?_, fun p => ?_⟩
  · rw [har, mem_keysOf_filter_ne, hd3 p, hdir1 p]
    constructor
    · rintro ⟨hp, hne⟩
      exact ⟨by tauto, hne⟩
    · rintro ⟨hp, hne⟩
      exact ⟨by tauto, hne⟩
  · rw [hfd, mem_keysOf_filter_eq, hd3 p]
    constructor
    · rintro ⟨-, hp⟩
      exact hp
    · rintro rfl
      exact ⟨Or.inr rfl, rfl⟩

/-- Witness for C3's amended claim at the concrete run of `wC3`. -/
theorem claim_C3_witness :
    (gatherRun wC3).2 = Except.ok rC3
    ∧ ("out/obj/app" ∈ keysOf rC3.archive ↔
        ((("out/obj/app" ∈ rC3.finalManifest.map Prod.snd
              ∧ leadsWith ['/'] ("out/obj/app" : String).data = false)
            ∨ "out/obj/app" = "meta.far" ∨ "out/obj/app" = "package.manifest")
          ∧ ("out/obj/app" : String) ≠ "package.tar"))
    ∧ ("package.tar" ∈ keysOf rC3.finalDir ↔
        ("package.tar" : String) = "package.tar") :=
  ⟨by decide, (claim_C3 wC3 rC3 (by decide)).1 "out/obj/app",
    (claim_C3 wC3 rC3 (by decide)).2 "package.tar"⟩

/-- Concrete slash-leading run: source `..///x` strips to `/x`, which
`os.path.join` treats as absolute, so the copy lands outside the output
directory — the manifest lists `/x` but the archive holds only `meta.far`
and `package.manifest`. -/
example :
    (gatherRun ⟨"p.json", "m.far", "o", "d", true, true,
        some [⟨"bin/x", "..///x"⟩], fun x => true⟩).2 =
      Except.ok ⟨[("bin/x", "/x")], "bin/x=/x\nmeta/package=meta.far\n",
        [("meta.far", "m.far"),
          ("package.manifest", "bin/x=/x\nmeta/package=meta.far\n")],
        [("package.tar", "")], "o/package.tar: ..///x\n"⟩ := by
  decide

/-- Claim C4: the depfile of a successful run is the single line
`<archive_path>: <space-separated original source paths>`, where the listed
paths are the pre-mutation values of the manifest mapping; as an
order-independent collection these equal the original `source_path` values
of the retained entries, while the final manifest holds the rewritten
(stripped) values instead. -/
theorem claim_C4 (w : World) (blobs : List Blob) (r : RunResult)
    (hm : w.manifestJson = some blobs)
    (hnd : (retainedPaths blobs).Nodup)
    (h : (gatherRun w).2 = Except.ok r) :
    r.depfileContent = w.output_dir ++ "/package.tar" ++ ": " ++
        String.intercalate " " ((parse_package_json blobs).map Prod.snd) ++ "\n"
    ∧ (((parse_package_json blobs).map Prod.snd : List String) : Multiset String)
        = (((blobs.filter fun b => !(pyStartsWith b.path "meta/")).map
            Blob.source_path : List String) : Multiset String)
    ∧ List.Forall₂ entryRewrites (parse_package_json blobs) r.finalManifest := by
  obtain ⟨blobs', log, dir1, hm', hcl, hmc, har, hfd, hdc, hlog⟩ :=
    gatherRun_ok_inv w r h
  have hbe : blobs' = blobs := by
    rw [hm] at hm'
    exact Option.some.inj hm'.symm
  rw [hbe] at hcl hdc
  refine ⟨hdc, ?_, ?_⟩
  · have hlist : (parse_package_json blobs).map Prod.snd =
        (blobs.filter fun b => !(pyStartsWith b.path "meta/")).map
          Blob.source_path := by
      rw [parse_package_json_eq blobs hnd, List.map_map]
      exact List.map_congr_left fun b _ => rfl
    rw [hlist]
  · obtain ⟨delta, hacc, hf2, hdirmem⟩ := copyLoop_ok w _ _ _ _ _ _ _ hcl
    have hdelta : delta = r.finalManifest := by simpa using hacc.symm
    rw [← hdelta]
    exact hf2

/-- Manifest blobs for the C4/C7 witness: two retained entries (one with
escaping `../` segments, one absolute) and one metadata entry. -/
def blobsC4 : List Blob :=
  [⟨"bin/app", "../../out/obj/app"⟩, ⟨"meta/contents", "ignored"⟩,
    ⟨"lib/x", "/abs/lib/x"⟩]

/-- World for the C4/C7 witness. -/
def wC4 : World :=
  ⟨"p.json", "m.far", "o", "d", true, true, some blobsC4, fun x => true⟩

/-- The result of the C4/C7 run. -/
def rC4 : RunResult :=
  ⟨[("bin/app", "out/obj/app"), ("lib/x", "abs/lib/x")],
    "bin/app=out/obj/app\nlib/x=abs/lib/x\nmeta/package=meta.far\n",
    [("meta.far", "m.far"), ("out/obj/app", "../../out/obj/app"),
      ("abs/lib/x", "/abs/lib/x"),
      ("package.manifest",
        "bin/app=out/obj/app\nlib/x=abs/lib/x\nmeta/package=meta.far\n")],
    [("package.tar", "")],
    "o/package.tar: ../../out/obj/app /abs/lib/x\n"⟩

/-- Witness for C4 at the concrete run of `wC4`. -/
theorem claim_C4_witness :
    (wC4.manifestJson = some blobsC4
      ∧ (retainedPaths blobsC4).Nodup
      ∧ (gatherRun wC4).2 = Except.ok rC4)
    ∧ (rC4.depfileContent = wC4.output_dir ++ "/package.tar" ++ ": " ++
          String.intercalate " " ((parse_package_json blobsC4).map Prod.snd) ++ "\n"
      ∧ (((parse_package_json blobsC4).map Prod.snd : List String) : Multiset String)
          = (((blobsC4.filter fun b => !(pyStartsWith b.path "meta/")).map
              Blob.source_path : List String) : Multiset String)
      ∧ List.Forall₂ entryRewrites (parse_package_json blobsC4) rC4.finalManifest) :=
  ⟨⟨rfl, by decide, by decide⟩,
    claim_C4 wC4 blobsC4 rC4 rfl (by decide) (by decide)⟩

/-- Claim C7: the manifest file is serialized as one
`virtual_path=canonical_path` line per retained entry in the insertion order
of the mapping — which for a valid (duplicate-free) manifest is the order
the entries were read — followed by exactly the fixed trailing
`meta/package=meta.far` line. -/
theorem claim_C7 (w : World) (blobs : List Blob) (r : RunResult)
    (hm : w.manifestJson = some blobs)
    (hnd : (retainedPaths blobs).Nodup)
    (h : (gatherRun w).2 = Except.ok r) :
    r.manifestContent =
      String.join (r.finalManifest.map fun kv => kv.1 ++ "=" ++ kv.2 ++ "\n") ++
        "meta/package=meta.far\n"
    ∧ keysOf r.finalManifest = keysOf (parse_package_json blobs)
    ∧ keysOf r.finalManifest = retainedPaths blobs := by
  obtain ⟨blobs', log, dir1, hm', hcl, hmc, har, hfd, hdc, hlog⟩ :=
    gatherRun_ok_inv w r h
  have hbe : blobs' = blobs := by
    rw [hm] at hm'
    exact Option.some.inj hm'.symm
  rw [hbe] at hcl
  obtain ⟨delta, hacc, hf2, hdirmem⟩ := copyLoop_ok w _ _ _ _ _ _ _ hcl
  have hdelta : delta = r.finalManifest := by simpa using hacc.symm
  subst hdelta
  have hkeys : keysOf r.finalManifest = keysOf (parse_package_json blobs) :=
    forall2_keysOf hf2
  exact ⟨hmc, hkeys, by rw [hkeys, parse_package_json_keys_order blobs hnd]⟩

/-- Witness for C7 at the concrete run of `wC4`. -/
theorem claim_C7_witness :
    (wC4.manifestJson = some blobsC4
      ∧ (retainedPaths blobsC4).Nodup
      ∧ (gatherRun wC4).2 = Except.ok rC4)
    ∧ (rC4.manifestContent =
        String.join (rC4.finalManifest.map fun kv => kv.1 ++ "=" ++ kv.2 ++ "\n") ++
          "meta/package=meta.far\n"
      ∧ keysOf rC4.finalManifest = keysOf (parse_package_json blobsC4)
      ∧ keysOf rC4.finalManifest = retainedPaths blobsC4) :=
  ⟨⟨rfl, by decide, by decide⟩,
    claim_C7 wC4 blobsC4 rC4 rfl (by decide) (by decide)⟩

/-- Manifest blobs for the C6 witness. -/
def blobsC6 : List Blob :=
  [⟨"bin/app", "s1"⟩, ⟨"meta/contents", "s2"⟩]

/-- Witness for C6 instantiated at the retained path `bin/app`. -/
theorem claim_C6_witness :
    (keysOf (parse_package_json blobsC6)).Nodup
    ∧ ("bin/app" ∈ keysOf (parse_package_json blobsC6) ↔
        ∃ b ∈ blobsC6, b.path = "bin/app" ∧ pyStartsWith b.path "meta/" = false)
    ∧ ((∃ b ∈ blobsC6, b.path = "bin/app" ∧ pyStartsWith b.path "meta/" = false) →
        (keysOf (parse_package_json blobsC6)).count "bin/app" = 1) :=
  ⟨(claim_C6 blobsC6).1, (claim_C6 blobsC6).2.1 "bin/app",
    (claim_C6 blobsC6).2.2 "bin/app"⟩
